import Mathlib

/- Shallow embedding of the polymarket-pgsql real-time order-book and
paper-trading core.

Source files embedded:
- src/polymarket_pgsql/clob_ws.py : OrderBookState (apply_snapshot,
  apply_changes, apply_top, _recompute_top), extract_asset_id,
  parse_market_channel_message.
- scripts/ws_gmp_arb_paper_trade.py : calc_fee, compute_prices and the
  open / close / mark-to-market paper-trading logic of run.

Modelling conventions:
- Python Decimal values are modelled as Rat (exact arithmetic; the
  Decimal context precision of 28 significant digits is not modelled).
- Python dicts are modelled as association lists with Python's
  insertion-order update semantics (dictGet / dictSet / dictPop).
- Book levels are modelled after the result of clob_ws._parse_level: an
  element none stands for a level whose price or size failed to parse
  (such levels are skipped), some (p, s) for a parsed level.
- Changes are modelled after the side/price/size extraction at the head
  of apply_changes: none stands for a change whose price or size could
  not be read; the side-tag filtering itself is part of apply_changes
  and is embedded explicitly.
- Timestamps are abstract (Nat); the raw source message attached to a
  top is not modelled (no claim depends on it).
-/

namespace PolymarketPgsql

/-- Python dict lookup: the entry with the given key, if any. -/
def dictGet {α β : Type} [DecidableEq α] : List (α × β) → α → Option β
  | [], _ => none
  | kv :: rest, k => if kv.1 = k then some kv.2 else dictGet rest k

/-- Python dict assignment: update the entry in place if the key is
present, otherwise append at the end (insertion order preserved). -/
def dictSet {α β : Type} [DecidableEq α] : List (α × β) → α → β → List (α × β)
  | [], k, v => [(k, v)]
  | kv :: rest, k, v => if kv.1 = k then (k, v) :: rest else kv :: dictSet rest k v

/-- Python dict.pop(k, None): drop the entry with the given key. -/
def dictPop {α β : Type} [DecidableEq α] : List (α × β) → α → List (α × β)
  | [], _ => []
  | kv :: rest, k => if kv.1 = k then rest else kv :: dictPop rest k

/-- Top of book (clob_ws.OrderBookTop); the raw message is omitted. -/
structure OrderBookTop where
  best_bid : Option Rat := none
  best_ask : Option Rat := none
  as_of : Nat := 0
  deriving DecidableEq

/-- max(...) over an iterable of prices with default None, as used by
OrderBookState._recompute_top. -/
def maxP (l : List Rat) : Option Rat :=
  l.foldl (fun acc p => match acc with | none => some p | some b => some (max b p)) none

/-- min(...) over an iterable of prices with default None, as used by
OrderBookState._recompute_top. -/
def minP (l : List Rat) : Option Rat :=
  l.foldl (fun acc p => match acc with | none => some p | some b => some (min b p)) none

/-- clob_ws.OrderBookState: per-asset book with price→size maps and a top. -/
structure OrderBookState where
  bids : List (Rat × Rat) := []
  asks : List (Rat × Rat) := []
  top : OrderBookTop := {}
  deriving DecidableEq

/-- A freshly created book (books.setdefault(asset_id, OrderBookState())). -/
def initialBook : OrderBookState := {}

/-- OrderBookState._recompute_top: the best bid is the maximal price with
positive size, the best ask the minimal one. -/
def recompute_top (st : OrderBookState) (as_of : Nat) : OrderBookState :=
  { st with top :=
      { best_bid := maxP ((st.bids.filter fun l => 0 < l.2).map Prod.fst)
        best_ask := minP ((st.asks.filter fun l => 0 < l.2).map Prod.fst)
        as_of := as_of } }

/-- One side of apply_snapshot: load the parsed levels into a cleared
dict (unparseable levels skipped; duplicate prices: last wins). -/
def loadSide (levels : List (Option (Rat × Rat))) : List (Rat × Rat) :=
  levels.foldl (fun acc lvl => match lvl with | none => acc | some ps => dictSet acc ps.1 ps.2) []

/-- OrderBookState.apply_snapshot: clear both sides, load the levels,
recompute the top. -/
def apply_snapshot (st : OrderBookState) (bids asks : List (Option (Rat × Rat)))
    (as_of : Nat) : OrderBookState :=
  recompute_top { st with bids := loadSide bids, asks := loadSide asks } as_of

/-- Loop body of OrderBookState.apply_changes for a single change:
unknown side tags are skipped; size ≤ 0 removes the level, otherwise it
is set. -/
def applyChangeStep (ba : List (Rat × Rat) × List (Rat × Rat))
    (ch : Option (String × Rat × Rat)) : List (Rat × Rat) × List (Rat × Rat) :=
  match ch with
  | none => ba
  | some c =>
    let side := c.1.toLower
    if side = "buy" ∨ side = "bid" then
      (if c.2.2 ≤ 0 then dictPop ba.1 c.2.1 else dictSet ba.1 c.2.1 c.2.2, ba.2)
    else if side = "sell" ∨ side = "ask" then
      (ba.1, if c.2.2 ≤ 0 then dictPop ba.2 c.2.1 else dictSet ba.2 c.2.1 c.2.2)
    else ba

/-- OrderBookState.apply_changes: apply the deltas, then recompute the top. -/
def apply_changes (st : OrderBookState) (chs : List (Option (String × Rat × Rat)))
    (as_of : Nat) : OrderBookState :=
  let ba := chs.foldl applyChangeStep (st.bids, st.asks)
  recompute_top { st with bids := ba.1, asks := ba.2 } as_of

/-- OrderBookState.apply_top: overwrite the top only; the depth maps are
left untouched. -/
def apply_top (st : OrderBookState) (best_bid best_ask : Option Rat)
    (as_of : Nat) : OrderBookState :=
  { st with top := { best_bid := best_bid, best_ask := best_ask, as_of := as_of } }

/-- A snapshot-mode book mutation: the two operations of the
snapshot/delta path of clob_ws.OrderBookState. -/
inductive BookOp where
  | snapshot (bids asks : List (Option (Rat × Rat))) (as_of : Nat)
  | changes (chs : List (Option (String × Rat × Rat))) (as_of : Nat)
  deriving DecidableEq

def applyOp (st : OrderBookState) : BookOp → OrderBookState
  | .snapshot b a t => apply_snapshot st b a t
  | .changes chs t => apply_changes st chs t

def applyOps (st : OrderBookState) (ops : List BookOp) : OrderBookState :=
  ops.foldl applyOp st

/-- Every size stored in the two depth maps is strictly positive. -/
def sizesPositiveB (st : OrderBookState) : Bool :=
  (st.bids.all fun l => decide (0 < l.2)) && (st.asks.all fun l => decide (0 < l.2))

/-- A parsed level has strictly positive size (vacuously true for a
level that failed to parse). -/
def levelSizePos (lvl : Option (Rat × Rat)) : Bool :=
  match lvl with
  | none => true
  | some ps => decide (0 < ps.2)

/-- All parsed levels of a snapshot operation have strictly positive
size; no constraint on delta operations. -/
def snapshotLevelsPos : BookOp → Bool
  | .snapshot bids asks _ => (bids.all levelSizePos) && (asks.all levelSizePos)
  | .changes _ _ => true

/-- The top is uncrossed: best_bid ≤ best_ask whenever both are present. -/
def topOrderedB (st : OrderBookState) : Bool :=
  match st.top.best_bid, st.top.best_ask with
  | some b, some a => decide (b ≤ a)
  | _, _ => true

/-- The depth maps are uncrossed: every positively-sized bid price is at
most every positively-sized ask price. -/
def uncrossed (st : OrderBookState) : Prop :=
  ∀ pb ∈ st.bids, 0 < pb.2 → ∀ pa ∈ st.asks, 0 < pa.2 → pb.1 ≤ pa.1

/-- One delta of the delta law's ⊕, on one side, following the spec
wording: size ≤ 0 removes the level, otherwise sets it. -/
def specDelta (m : List (Rat × Rat)) (p s : Rat) : List (Rat × Rat) :=
  if s ≤ 0 then dictPop m p else dictSet m p s

/-- One step of S ⊕ D: buy/bid deltas hit the bid side, sell/ask deltas
the ask side, other side tags are ignored. -/
def specOplusStep (ba : List (Rat × Rat) × List (Rat × Rat))
    (ch : Option (String × Rat × Rat)) : List (Rat × Rat) × List (Rat × Rat) :=
  match ch with
  | none => ba
  | some c =>
    if c.1.toLower = "buy" ∨ c.1.toLower = "bid" then (specDelta ba.1 c.2.1 c.2.2, ba.2)
    else if c.1.toLower = "sell" ∨ c.1.toLower = "ask" then (ba.1, specDelta ba.2 c.2.1 c.2.2)
    else ba

/-- S ⊕ D of the claimed delta law: the parsed snapshot with the deltas
of D applied in order. -/
def specOplus (ba : List (Rat × Rat) × List (Rat × Rat)) :
    List (Option (String × Rat × Rat)) → List (Rat × Rat) × List (Rat × Rat)
  | [] => ba
  | ch :: rest => specOplus (specOplusStep ba ch) rest

/-- Keys of an association list are pairwise distinct (holds for every
list built through the Python-dict operations). -/
def keysNodup {α β : Type} (l : List (α × β)) : Prop := (l.map Prod.fst).Nodup

/-- Banker's rounding to an integer: nearest integer, ties to the even
one — the rounding mode applied by Decimal.quantize (the context default
ROUND_HALF_EVEN). -/
def roundHalfEven (y : Rat) : Int :=
  if y - (y.floor : Rat) < mkRat 1 2 then y.floor
  else if mkRat 1 2 < y - (y.floor : Rat) then y.floor + 1
  else if y.floor % 2 = 0 then y.floor else y.floor + 1

/-- Quantization to 8 fractional digits, half-to-even — the effect of
quantizing to Decimal 0.00000001 inside calc_fee. -/
def round8 (x : Rat) : Rat := mkRat (roundHalfEven (x * 100000000)) 100000000

/-- scripts/ws_gmp_arb_paper_trade.calc_fee: zero when fee_rate ≤ 0,
else the proportional fee notional × fee_rate quantized to 8 fractional
digits. -/
def calc_fee (fee_rate notional : Rat) : Rat :=
  if fee_rate ≤ 0 then 0 else round8 (notional * fee_rate)

/-- ws_gmp_arb_paper_trade.MarketTokens: one configured market and its
YES/NO asset ids. -/
structure MarketTokens where
  market_id : Int
  question : String
  yes_asset_id : String
  no_asset_id : String
  deriving DecidableEq

/-- ws_gmp_arb_paper_trade.BasketPosition. -/
structure BasketPosition where
  qty_per_leg : Rat
  entry_yes_prices : List (Int × Rat)
  entry_fees : List (Int × Rat)
  opened_at : Nat
  deriving DecidableEq

/-- One value of the per_market dict built by compute_prices. -/
structure MarketView where
  yes_bid : Option Rat
  yes_ask : Option Rat
  no_bid : Option Rat
  no_ask : Option Rat
  deriving DecidableEq

/-- Body of the compute_prices loop for one market: a side is None when
the asset has no book yet or its top lacks that side. -/
def viewOf (books : List (String × OrderBookState)) (t : MarketTokens) : MarketView :=
  { yes_bid := ((dictGet books t.yes_asset_id).map (fun st => st.top)).bind (fun tp => tp.best_bid)
    yes_ask := ((dictGet books t.yes_asset_id).map (fun st => st.top)).bind (fun tp => tp.best_ask)
    no_bid := ((dictGet books t.no_asset_id).map (fun st => st.top)).bind (fun tp => tp.best_bid)
    no_ask := ((dictGet books t.no_asset_id).map (fun st => st.top)).bind (fun tp => tp.best_ask) }

/-- compute_prices accumulator loop: per_market dict, running YES-ask
sum and completeness flag (a missing yes_ask clears the flag, a present
one is added to the sum). -/
def cpLoop (books : List (String × OrderBookState)) :
    List MarketTokens → List (Int × MarketView) → Rat → Bool →
      List (Int × MarketView) × Rat × Bool
  | [], pm, s, c => (pm, s, c)
  | t :: rest, pm, s, c =>
    match (viewOf books t).yes_ask with
    | none => cpLoop books rest (dictSet pm t.market_id (viewOf books t)) s false
    | some a => cpLoop books rest (dictSet pm t.market_id (viewOf books t)) (s + a) c

/-- scripts/ws_gmp_arb_paper_trade.compute_prices: the per-market view
and the YES-ask sum (None when some market has no yes_ask). -/
def compute_prices (tokens : List MarketTokens) (books : List (String × OrderBookState)) :
    List (Int × MarketView) × Option Rat :=
  let r := cpLoop books tokens [] 0 true
  (r.1, if r.2.2 then some r.2.1 else none)

/-- cond_ready of run: the YES-ask sum is present. -/
def cond_ready (sum_yes_ask : Option Rat) : Bool := sum_yes_ask.isSome

/-- cond_open of run: ready and sum_yes_ask strictly below threshold. -/
def cond_open (sum_yes_ask : Option Rat) (threshold : Rat) : Bool :=
  match sum_yes_ask with
  | some s => decide (s < threshold)
  | none => false

/-- The lookup per_market[m].yes_ask, None when the market is absent. -/
def yesAskAt (pm : List (Int × MarketView)) (m : Int) : Option Rat :=
  (dictGet pm m).bind (fun v => v.yes_ask)

/-- The lookup per_market[m].yes_bid, None when the market is absent. -/
def yesBidAt (pm : List (Int × MarketView)) (m : Int) : Option Rat :=
  (dictGet pm m).bind (fun v => v.yes_bid)

/-- Open loop of run: collect entry YES prices and entry fees per
market; a missing yes_ask aborts the open (ok = False). -/
def openLoop (pm : List (Int × MarketView)) (fee_rate qty : Rat) :
    List MarketTokens → List (Int × Rat) → List (Int × Rat) →
      Option (List (Int × Rat) × List (Int × Rat))
  | [], prices, fees => some (prices, fees)
  | t :: rest, prices, fees =>
    match yesAskAt pm t.market_id with
    | none => none
    | some a =>
      openLoop pm fee_rate qty rest (dictSet prices t.market_id a)
        (dictSet fees t.market_id (calc_fee fee_rate (a * qty)))

/-- Shared loop of the close branch (exit_pnl / exit_fee) and of the
mark-to-market branch (mtm / est_exit_fee) of run — the two loops are
textually identical in the source. A missing yes_bid aborts (ok =
False); a missing entry price raises in the source, which the outer
reconnect handler turns into the same no-state-change outcome, so it is
modelled as the same abort. -/
def mtmLoop (pm : List (Int × MarketView)) (pos : BasketPosition) (fee_rate : Rat) :
    List MarketTokens → Rat → Rat → Option (Rat × Rat)
  | [], pnl, fee => some (pnl, fee)
  | t :: rest, pnl, fee =>
    match yesBidAt pm t.market_id, dictGet pos.entry_yes_prices t.market_id with
    | some bid, some buy =>
      mtmLoop pm pos fee_rate rest (pnl + (bid - buy) * pos.qty_per_leg)
        (fee + calc_fee fee_rate (bid * pos.qty_per_leg))
    | _, _ => none

/-- sum(pos.entry_fees.values(), Decimal 0). -/
def entryFeeSum (p : BasketPosition) : Rat := (p.entry_fees.map (fun kv => kv.2)).sum

/-- The paper-trading state owned by run: the optional basket position
and the accumulated realized PnL. -/
structure TraderState where
  pos : Option BasketPosition
  realized_pnl : Rat
  deriving DecidableEq

/-- One step of the open/close logic of run, for an already-computed
per-market view and YES-ask sum: open from FLAT when cond_open (skipped
when some yes_ask is missing), close from OPEN when ready and not open
(held when some yes_bid is missing), otherwise hold. The arb-signal
insert performed on open is external I/O and is not modelled. -/
def traderStep (tokens : List MarketTokens) (pm : List (Int × MarketView))
    (sum_yes_ask : Option Rat) (threshold fee_rate qty : Rat) (as_of : Nat)
    (st : TraderState) : TraderState :=
  match st.pos with
  | none =>
    if cond_open sum_yes_ask threshold then
      match openLoop pm fee_rate qty tokens [] [] with
      | some pf => { st with pos := some ⟨qty, pf.1, pf.2, as_of⟩ }
      | none => st
    else st
  | some p =>
    if cond_ready sum_yes_ask && !cond_open sum_yes_ask threshold then
      match mtmLoop pm p fee_rate tokens 0 0 with
      | some pf => { pos := none, realized_pnl := st.realized_pnl + (pf.1 - entryFeeSum p - pf.2) }
      | none => st
    else st

/-- The unrealized-PnL recomputation of run (mark-to-bid while holding;
None when flat or when some yes_bid is missing). -/
def computeUnrealized (tokens : List MarketTokens) (pm : List (Int × MarketView))
    (fee_rate : Rat) (pos : Option BasketPosition) : Option Rat :=
  match pos with
  | none => none
  | some p => (mtmLoop pm p fee_rate tokens 0 0).map (fun mf => mf.1 - entryFeeSum p - mf.2)

/-- The unrealized_pnl argument passed to upsert_paper_pnl by
flush_db_prices: the computed value, or zero when it is absent. -/
def pnlUpsertUnrealized (u : Option Rat) : Rat :=
  match u with
  | some v => v
  | none => 0

/-- The unrealized-PnL formula in the words of the spec (mark-to-market
while open): Σ(yes_bid − entry)·qty − Σ entry_fees − Σ round8(fee_rate ×
yes_bid × qty) when every yes_bid is present, absent otherwise. -/
def specUnrealized (tokens : List MarketTokens) (pm : List (Int × MarketView))
    (fee_rate : Rat) (p : BasketPosition) : Option Rat :=
  if tokens.all (fun t => (yesBidAt pm t.market_id).isSome) then
    some ((tokens.map (fun t => ((yesBidAt pm t.market_id).getD 0
            - (dictGet p.entry_yes_prices t.market_id).getD 0) * p.qty_per_leg)).sum
      - entryFeeSum p
      - (tokens.map (fun t =>
          round8 (fee_rate * (yesBidAt pm t.market_id).getD 0 * p.qty_per_leg))).sum)
  else none

/-- Concrete one-market configuration used in concrete instances. -/
def tok1 : MarketTokens := ⟨1, "q", "a", "b"⟩

/-- Concrete per-market view: market 1 quoted 1/2 bid, 1/2 ask. -/
def pmCex : List (Int × MarketView) :=
  [(1, ⟨some (mkRat 1 2), some (mkRat 1 2), none, none⟩)]

/-- Concrete basket position: qty 1, entry 1/4 on market 1, no fee. -/
def posCex : BasketPosition := ⟨1, [(1, mkRat 1 4)], [(1, 0)], 0⟩

/-- Concrete books map: asset a quoted 1/2 bid, 1/2 ask (top-only). -/
def booksCex : List (String × OrderBookState) :=
  [("a", { bids := [], asks := [], top := ⟨some (mkRat 1 2), some (mkRat 1 2), 0⟩ })]

/-- A wire message as seen by the feed parser: the four known asset-id
fields (none = absent or JSON null, matching msg.get(k) is None) and the
shape-determining payload fields (an Option outer layer marks key
presence; for best_bid/best_ask the inner Option is the possibly-null
value; non-list values of bids/asks/changes count as absent, matching
the isinstance checks). -/
structure WireMsg where
  asset_id : Option String
  assetId : Option String
  token_id : Option String
  tokenId : Option String
  bids : Option (List (Option (Rat × Rat)))
  asks : Option (List (Option (Rat × Rat)))
  best_bid : Option (Option Rat)
  best_ask : Option (Option Rat)
  changes : Option (List (Option (String × Rat × Rat)))
  deriving DecidableEq

/-- clob_ws.extract_asset_id: inspect asset_id, assetId, token_id,
tokenId in order; the first non-null value wins, None when none hits. -/
def extract_asset_id (m : WireMsg) : Option String :=
  match m.asset_id with
  | some v => some v
  | none =>
    match m.assetId with
    | some v => some v
    | none =>
      match m.token_id with
      | some v => some v
      | none => m.tokenId

/-- The normalized event emitted by parse_market_channel_message (the
raw payload copy is omitted). -/
inductive NormEvent where
  | snapshot (bids asks : List (Option (Rat × Rat)))
  | top (best_bid best_ask : Option Rat)
  | changes (chs : List (Option (String × Rat × Rat)))
  | unknown
  deriving DecidableEq

/-- Shape dispatch of parse_market_channel_message: snapshot when both a
bids and an asks list are present, else top when a best_bid or best_ask
key is present, else changes when a changes list is present, else
unknown. -/
def classifyMsg (m : WireMsg) : NormEvent :=
  match m.bids, m.asks with
  | some bs, some aks => .snapshot bs aks
  | _, _ =>
    if m.best_bid.isSome || m.best_ask.isSome then
      .top (m.best_bid.getD none) (m.best_ask.getD none)
    else
      match m.changes with
      | some chs => .changes chs
      | none => .unknown

/-- clob_ws.parse_market_channel_message: drop the message (no asset id,
no event) when asset-id extraction fails, else pair the asset id with
the classified event. -/
def parse_market_channel_message (m : WireMsg) : Option String × Option NormEvent :=
  match extract_asset_id m with
  | none => (none, none)
  | some aid => (some aid, some (classifyMsg m))

/-- Concrete message whose only asset-id field is assetId. -/
def msgW : WireMsg := ⟨none, some "x", none, none, none, none, none, none, none⟩

/- ===== helper lemmas ===== -/

theorem ratFloor_eq_intFloor (q : Rat) : (q.floor : Int) = ⌊q⌋ := rfl

theorem roundHalfEven_close (y : Rat) : |(roundHalfEven y : Rat) - y| ≤ 1/2 := by
  have hmk : (mkRat 1 2 : Rat) = 1/2 := by rw [Rat.mkRat_eq_div]; norm_num
  have h0 : ((y.floor : Int) : Rat) ≤ y := by
    rw [ratFloor_eq_intFloor]
    exact Int.floor_le y
  have h1 : y < ((y.floor : Int) : Rat) + 1 := by
    rw [ratFloor_eq_intFloor]
    exact Int.lt_floor_add_one y
  unfold roundHalfEven
  split_ifs with hf hg he <;> simp only [hmk] at * <;>
    (rw [abs_le]; constructor <;> push_cast <;> linarith)

theorem round8_close (x : Rat) : |round8 x - x| < 1/100000000 := by
  have h := roundHalfEven_close (x * 100000000)
  have hrw : round8 x - x
      = ((roundHalfEven (x * 100000000) : Rat) - x * 100000000) / 100000000 := by
    rw [round8, Rat.mkRat_eq_div]
    push_cast
    field_simp
    ring
  rw [hrw, abs_div]
  rw [show |(100000000 : Rat)| = 100000000 by norm_num]
  calc |(roundHalfEven (x * 100000000) : Rat) - x * 100000000| / 100000000
      ≤ (1/2) / 100000000 := (div_le_div_iff_of_pos_right (by norm_num)).mpr h
    _ < 1/100000000 := by norm_num

theorem round8_zero : round8 0 = 0 := by
  have h : roundHalfEven 0 = 0 := by
    unfold roundHalfEven
    norm_num [ratFloor_eq_intFloor, Rat.mkRat_eq_div]
  rw [round8, zero_mul, h]
  norm_num [Rat.mkRat_eq_div]

theorem calc_fee_eq_round8 {fee_rate : Rat} (h : 0 ≤ fee_rate) (n : Rat) :
    calc_fee fee_rate n = round8 (fee_rate * n) := by
  rcases eq_or_lt_of_le h with heq | hlt
  · rw [← heq]
    simp [calc_fee, round8_zero]
  · rw [calc_fee, if_neg (not_le.mpr hlt), mul_comm]

theorem dictGet_dictSet {α β : Type} [DecidableEq α] (l : List (α × β)) (k k' : α) (v : β) :
    dictGet (dictSet l k v) k' = if k' = k then some v else dictGet l k' := by
  induction l with
  | nil =>
    by_cases h : k' = k
    · simp [dictGet, dictSet, h]
    · simp [dictGet, dictSet, h, Ne.symm h]
  | cons kv rest ih =>
    by_cases hk : kv.1 = k
    · by_cases h : k' = k
      · simp [dictSet, dictGet, hk, h]
      · have hkv : ¬ (kv.1 = k') := fun h' => h (h'.symm.trans hk)
        simp [dictSet, dictGet, hk, h, Ne.symm h, hkv]
    · by_cases h : k' = k
      · subst h
        simp [dictSet, dictGet, hk, ih]
      · by_cases hkv : kv.1 = k'
        · simp [dictSet, dictGet, hk, h, hkv]
        · simp [dictSet, dictGet, hk, h, hkv, ih]

theorem mem_dictSet {α β : Type} [DecidableEq α] {x : α × β} {l : List (α × β)} {k : α} {v : β}
    (hx : x ∈ dictSet l k v) : x = (k, v) ∨ x ∈ l := by
  induction l with
  | nil => simpa [dictSet] using hx
  | cons kv rest ih =>
    by_cases hk : kv.1 = k
    · simp only [dictSet, if_pos hk] at hx
      rcases List.mem_cons.mp hx with h | h
      · exact Or.inl h
      · exact Or.inr (List.mem_cons_of_mem _ h)
    · simp only [dictSet, if_neg hk] at hx
      rcases List.mem_cons.mp hx with h | h
      · exact Or.inr (by simp [h])
      · rcases ih h with h' | h'
        · exact Or.inl h'
        · exact Or.inr (List.mem_cons_of_mem _ h')

theorem mem_dictPop {α β : Type} [DecidableEq α] {x : α × β} {l : List (α × β)} {k : α}
    (hx : x ∈ dictPop l k) : x ∈ l := by
  induction l with
  | nil => simp [dictPop] at hx
  | cons kv rest ih =>
    by_cases hk : kv.1 = k
    · simp only [dictPop, if_pos hk] at hx
      exact List.mem_cons_of_mem _ hx
    · simp only [dictPop, if_neg hk] at hx
      rcases List.mem_cons.mp hx with h | h
      · simp [h]
      · exact List.mem_cons_of_mem _ (ih h)

theorem maxP_go_mem (l : List Rat) (b m : Rat)
    (h : l.foldl (fun acc p => match acc with | none => some p | some c => some (max c p))
        (some b) = some m) :
    m = b ∨ m ∈ l := by
  induction l generalizing b with
  | nil => simp at h; exact Or.inl h.symm
  | cons p rest ih =>
    simp only [List.foldl_cons] at h
    rcases ih (max b p) h with h' | h'
    · rcases max_choice b p with hm | hm
      · exact Or.inl (by rw [h', hm])
      · refine Or.inr ?_
        rw [h', hm]
        exact List.mem_cons_self _ _
    · exact Or.inr (List.mem_cons_of_mem _ h')

theorem minP_go_mem (l : List Rat) (b m : Rat)
    (h : l.foldl (fun acc p => match acc with | none => some p | some c => some (min c p))
        (some b) = some m) :
    m = b ∨ m ∈ l := by
  induction l generalizing b with
  | nil => simp at h; exact Or.inl h.symm
  | cons p rest ih =>
    simp only [List.foldl_cons] at h
    rcases ih (min b p) h with h' | h'
    · rcases min_choice b p with hm | hm
      · exact Or.inl (by rw [h', hm])
      · refine Or.inr ?_
        rw [h', hm]
        exact List.mem_cons_self _ _
    · exact Or.inr (List.mem_cons_of_mem _ h')

theorem maxP_mem {l : List Rat} {m : Rat} (h : maxP l = some m) : m ∈ l := by
  cases l with
  | nil => simp [maxP] at h
  | cons p rest =>
    rcases maxP_go_mem rest p m (by simpa [maxP] using h) with h' | h'
    · simp [h']
    · exact List.mem_cons_of_mem _ h'

theorem minP_mem {l : List Rat} {m : Rat} (h : minP l = some m) : m ∈ l := by
  cases l with
  | nil => simp [minP] at h
  | cons p rest =>
    rcases minP_go_mem rest p m (by simpa [minP] using h) with h' | h'
    · simp [h']
    · exact List.mem_cons_of_mem _ h'

theorem loadSide_go_pos (levels : List (Option (Rat × Rat))) (acc : List (Rat × Rat))
    (hl : ∀ lvl ∈ levels, levelSizePos lvl = true)
    (ha : ∀ x ∈ acc, 0 < x.2) :
    ∀ x ∈ levels.foldl
        (fun acc lvl => match lvl with | none => acc | some ps => dictSet acc ps.1 ps.2) acc,
      0 < x.2 := by
  induction levels generalizing acc with
  | nil => simpa using ha
  | cons lvl rest ih =>
    intro x hx
    simp only [List.foldl_cons] at hx
    cases lvl with
    | none => exact ih acc (fun l hl' => hl l (List.mem_cons_of_mem _ hl')) ha x hx
    | some ps =>
      refine ih (dictSet acc ps.1 ps.2) (fun l hl' => hl l (List.mem_cons_of_mem _ hl')) ?_ x hx
      intro y hy
      rcases mem_dictSet hy with h | h
      · have hp := hl (some ps) (List.mem_cons_self _ _)
        simp only [levelSizePos, decide_eq_true_eq] at hp
        rw [h]
        exact hp
      · exact ha y h

theorem loadSide_pos (levels : List (Option (Rat × Rat)))
    (hl : ∀ lvl ∈ levels, levelSizePos lvl = true) :
    ∀ x ∈ loadSide levels, 0 < x.2 :=
  loadSide_go_pos levels [] hl (by simp)

theorem applyChangeStep_pos (ba : List (Rat × Rat) × List (Rat × Rat))
    (ch : Option (String × Rat × Rat))
    (hb : ∀ x ∈ ba.1, 0 < x.2) (ha : ∀ x ∈ ba.2, 0 < x.2) :
    (∀ x ∈ (applyChangeStep ba ch).1, 0 < x.2) ∧ (∀ x ∈ (applyChangeStep ba ch).2, 0 < x.2) := by
  cases ch with
  | none => exact ⟨hb, ha⟩
  | some c =>
    simp only [applyChangeStep]
    split_ifs with h1 h2 h3 h4
    · exact ⟨fun x hx => hb x (mem_dictPop hx), ha⟩
    · refine ⟨fun x hx => ?_, ha⟩
      rcases mem_dictSet hx with h | h
      · rw [h]; exact not_le.mp h2
      · exact hb x h
    · exact ⟨hb, fun x hx => ha x (mem_dictPop hx)⟩
    · refine ⟨hb, fun x hx => ?_⟩
      rcases mem_dictSet hx with h | h
      · rw [h]; exact not_le.mp h4
      · exact ha x h
    · exact ⟨hb, ha⟩

theorem foldChanges_pos (chs : List (Option (String × Rat × Rat)))
    (ba : List (Rat × Rat) × List (Rat × Rat))
    (hb : ∀ x ∈ ba.1, 0 < x.2) (ha : ∀ x ∈ ba.2, 0 < x.2) :
    (∀ x ∈ (chs.foldl applyChangeStep ba).1, 0 < x.2) ∧
    (∀ x ∈ (chs.foldl applyChangeStep ba).2, 0 < x.2) := by
  induction chs generalizing ba with
  | nil => exact ⟨hb, ha⟩
  | cons ch rest ih =>
    have h := applyChangeStep_pos ba ch hb ha
    simpa using ih (applyChangeStep ba ch) h.1 h.2

theorem sizesPositiveB_iff (st : OrderBookState) :
    sizesPositiveB st = true ↔ (∀ x ∈ st.bids, 0 < x.2) ∧ (∀ x ∈ st.asks, 0 < x.2) := by
  simp [sizesPositiveB, List.all_eq_true]

theorem applyOp_sizesPos (st : OrderBookState) (op : BookOp)
    (hst : sizesPositiveB st = true) (hop : snapshotLevelsPos op = true) :
    sizesPositiveB (applyOp st op) = true := by
  cases op with
  | snapshot b a t =>
    simp only [snapshotLevelsPos, Bool.and_eq_true, List.all_eq_true] at hop
    refine (sizesPositiveB_iff _).mpr ⟨?_, ?_⟩
    · exact loadSide_pos b hop.1
    · exact loadSide_pos a hop.2
  | changes chs t =>
    rcases (sizesPositiveB_iff st).mp hst with ⟨hb, ha⟩
    have h := foldChanges_pos chs (st.bids, st.asks) hb ha
    exact (sizesPositiveB_iff _).mpr h

theorem applyOps_sizesPos (ops : List BookOp) (st : OrderBookState)
    (hst : sizesPositiveB st = true)
    (h : ∀ op ∈ ops, snapshotLevelsPos op = true) :
    sizesPositiveB (applyOps st ops) = true := by
  induction ops generalizing st with
  | nil => simpa [applyOps] using hst
  | cons op rest ih =>
    have h1 := applyOp_sizesPos st op hst (h op (List.mem_cons_self _ _))
    simpa [applyOps] using ih (applyOp st op) h1 (fun o ho => h o (List.mem_cons_of_mem _ ho))

theorem recompute_top_ordered (s : OrderBookState) (t : Nat)
    (h : uncrossed s) : topOrderedB (recompute_top s t) = true := by
  unfold topOrderedB recompute_top
  cases hb : maxP ((s.bids.filter fun l => 0 < l.2).map Prod.fst) with
  | none => simp [hb]
  | some b =>
    cases ha : minP ((s.asks.filter fun l => 0 < l.2).map Prod.fst) with
    | none => simp [hb, ha]
    | some a =>
      simp only [hb, ha, decide_eq_true_eq]
      rcases List.mem_map.mp (maxP_mem hb) with ⟨pb, hpb, hpb1⟩
      rcases List.mem_map.mp (minP_mem ha) with ⟨pa, hpa, hpa1⟩
      rcases List.mem_filter.mp hpb with ⟨hpbm, hpbs⟩
      rcases List.mem_filter.mp hpa with ⟨hpam, hpas⟩
      rw [← hpb1, ← hpa1]
      exact h pb hpbm (of_decide_eq_true hpbs) pa hpam (of_decide_eq_true hpas)

theorem mem_keys_dictSet {α β : Type} [DecidableEq α] {l : List (α × β)} {k x : α} {v : β}
    (h : x ∈ (dictSet l k v).map Prod.fst) : x = k ∨ x ∈ l.map Prod.fst := by
  rcases List.mem_map.mp h with ⟨kv, hkv, rfl⟩
  rcases mem_dictSet hkv with h' | h'
  · exact Or.inl (by rw [h'])
  · exact Or.inr (List.mem_map_of_mem _ h')

theorem mem_keys_dictPop {α β : Type} [DecidableEq α] {l : List (α × β)} {k x : α}
    (h : x ∈ (dictPop l k).map Prod.fst) : x ∈ l.map Prod.fst := by
  rcases List.mem_map.mp h with ⟨kv, hkv, rfl⟩
  exact List.mem_map_of_mem _ (mem_dictPop hkv)

theorem keysNodup_dictSet {α β : Type} [DecidableEq α] {l : List (α × β)} {k : α} {v : β}
    (h : keysNodup l) : keysNodup (dictSet l k v) := by
  induction l with
  | nil => simp [dictSet, keysNodup]
  | cons kv rest ih =>
    simp only [keysNodup, List.map_cons, List.nodup_cons] at h
    by_cases hk : kv.1 = k
    · simp only [dictSet, if_pos hk, keysNodup, List.map_cons, List.nodup_cons]
      exact ⟨hk ▸ h.1, h.2⟩
    · simp only [dictSet, if_neg hk, keysNodup, List.map_cons, List.nodup_cons]
      refine ⟨fun hmem => ?_, ih h.2⟩
      rcases mem_keys_dictSet hmem with h' | h'
      · exact hk h'
      · exact h.1 h'

theorem keysNodup_dictPop {α β : Type} [DecidableEq α] {l : List (α × β)} {k : α}
    (h : keysNodup l) : keysNodup (dictPop l k) := by
  induction l with
  | nil => simpa [dictPop] using h
  | cons kv rest ih =>
    simp only [keysNodup, List.map_cons, List.nodup_cons] at h
    by_cases hk : kv.1 = k
    · simp only [dictPop, if_pos hk]
      exact h.2
    · simp only [dictPop, if_neg hk, keysNodup, List.map_cons, List.nodup_cons]
      exact ⟨fun hmem => h.1 (mem_keys_dictPop hmem), ih h.2⟩

theorem keysNodup_specDelta {m : List (Rat × Rat)} {p s : Rat}
    (h : keysNodup m) : keysNodup (specDelta m p s) := by
  unfold specDelta
  split_ifs
  · exact keysNodup_dictPop h
  · exact keysNodup_dictSet h

theorem keysNodup_specOplusStep (ba : List (Rat × Rat) × List (Rat × Rat))
    (ch : Option (String × Rat × Rat))
    (hb : keysNodup ba.1) (ha : keysNodup ba.2) :
    keysNodup (specOplusStep ba ch).1 ∧ keysNodup (specOplusStep ba ch).2 := by
  cases ch with
  | none => exact ⟨hb, ha⟩
  | some c =>
    simp only [specOplusStep]
    split_ifs
    · exact ⟨keysNodup_specDelta hb, ha⟩
    · exact ⟨hb, keysNodup_specDelta ha⟩
    · exact ⟨hb, ha⟩

theorem specOplus_keysNodup (chs : List (Option (String × Rat × Rat)))
    (ba : List (Rat × Rat) × List (Rat × Rat))
    (hb : keysNodup ba.1) (ha : keysNodup ba.2) :
    keysNodup (specOplus ba chs).1 ∧ keysNodup (specOplus ba chs).2 := by
  induction chs generalizing ba with
  | nil => exact ⟨hb, ha⟩
  | cons ch rest ih =>
    have h := keysNodup_specOplusStep ba ch hb ha
    simpa [specOplus] using ih (specOplusStep ba ch) h.1 h.2

theorem applyChangeStep_eq_specOplusStep (ba : List (Rat × Rat) × List (Rat × Rat))
    (ch : Option (String × Rat × Rat)) : applyChangeStep ba ch = specOplusStep ba ch := by
  cases ch <;> rfl

theorem foldl_applyChangeStep_eq_specOplus (chs : List (Option (String × Rat × Rat)))
    (ba : List (Rat × Rat) × List (Rat × Rat)) :
    chs.foldl applyChangeStep ba = specOplus ba chs := by
  induction chs generalizing ba with
  | nil => rfl
  | cons ch rest ih =>
    simp only [List.foldl_cons, specOplus, applyChangeStep_eq_specOplusStep]
    exact ih _

theorem loadSide_go_keysNodup (levels : List (Option (Rat × Rat))) (acc : List (Rat × Rat))
    (h : keysNodup acc) :
    keysNodup (levels.foldl
      (fun acc lvl => match lvl with | none => acc | some ps => dictSet acc ps.1 ps.2) acc) := by
  induction levels generalizing acc with
  | nil => simpa using h
  | cons lvl rest ih =>
    simp only [List.foldl_cons]
    cases lvl with
    | none => exact ih acc h
    | some ps => exact ih _ (keysNodup_dictSet h)

theorem loadSide_keysNodup (levels : List (Option (Rat × Rat))) : keysNodup (loadSide levels) :=
  loadSide_go_keysNodup levels [] (by simp [keysNodup])

theorem dictSet_append_of_not_mem {α β : Type} [DecidableEq α] {l : List (α × β)} {k : α} {v : β}
    (h : ∀ kv ∈ l, kv.1 ≠ k) : dictSet l k v = l ++ [(k, v)] := by
  induction l with
  | nil => rfl
  | cons kv rest ih =>
    have hk : ¬ (kv.1 = k) := h kv (List.mem_cons_self _ _)
    simp only [dictSet, if_neg hk, List.cons_append, List.cons.injEq, true_and]
    exact ih (fun kv' hkv' => h kv' (List.mem_cons_of_mem _ hkv'))

theorem foldl_dictSet_rebuild {α β : Type} [DecidableEq α] (B : List (α × β)) :
    ∀ acc : List (α × β), keysNodup (acc ++ B) →
      B.foldl (fun m ps => dictSet m ps.1 ps.2) acc = acc ++ B := by
  induction B with
  | nil => intro acc _; simp
  | cons ps rest ih =>
    intro acc h
    have hdisj : ∀ kv ∈ acc, kv.1 ≠ ps.1 := by
      intro kv hkv heq
      have h' : ((acc.map Prod.fst) ++ (ps.1 :: rest.map Prod.fst)).Nodup := by
        simpa [keysNodup] using h
      rcases List.nodup_append.mp h' with ⟨_, _, hd⟩
      exact hd (heq ▸ List.mem_map_of_mem _ hkv) (List.mem_cons_self _ _)
    have hstep : dictSet acc ps.1 ps.2 = acc ++ [ps] := dictSet_append_of_not_mem hdisj
    have hne : (acc ++ [ps]) ++ rest = acc ++ ps :: rest := by
      simp
    simp only [List.foldl_cons, hstep]
    rw [ih (acc ++ [ps]) (by rw [keysNodup, hne]; exact h), hne]

theorem loadSide_map_some (B : List (Rat × Rat)) :
    loadSide (B.map some) = B.foldl (fun m ps => dictSet m ps.1 ps.2) [] := by
  unfold loadSide
  rw [List.foldl_map]

theorem cpLoop_flag (books : List (String × OrderBookState)) (l : List MarketTokens) :
    ∀ pm s c, (cpLoop books l pm s c).2.2
      = (c && l.all (fun t => (viewOf books t).yes_ask.isSome)) := by
  induction l with
  | nil => intro pm s c; simp [cpLoop]
  | cons t rest ih =>
    intro pm s c
    cases hv : (viewOf books t).yes_ask with
    | none => simp [cpLoop, hv, ih]
    | some a => simp [cpLoop, hv, ih]

theorem cpLoop_sum (books : List (String × OrderBookState)) (l : List MarketTokens)
    (hall : ∀ t ∈ l, (viewOf books t).yes_ask.isSome = true) :
    ∀ pm s c, (cpLoop books l pm s c).2.1
      = s + (l.map (fun t => ((viewOf books t).yes_ask).getD 0)).sum := by
  induction l with
  | nil => intro pm s c; simp [cpLoop]
  | cons t rest ih =>
    intro pm s c
    obtain ⟨a, hv⟩ := Option.isSome_iff_exists.mp (hall t (List.mem_cons_self _ _))
    have h' := fun t' ht' => hall t' (List.mem_cons_of_mem _ ht')
    simp [cpLoop, hv, ih h', add_assoc]

theorem cpLoop_pm (books : List (String × OrderBookState)) (l : List MarketTokens) :
    ∀ pm s c, (cpLoop books l pm s c).1
      = l.foldl (fun acc t => dictSet acc t.market_id (viewOf books t)) pm := by
  induction l with
  | nil => intro pm s c; simp [cpLoop]
  | cons t rest ih =>
    intro pm s c
    cases hv : (viewOf books t).yes_ask with
    | none => simp [cpLoop, hv, ih]
    | some a => simp [cpLoop, hv, ih]

theorem compute_prices_sum_eq (tokens : List MarketTokens)
    (books : List (String × OrderBookState)) :
    (compute_prices tokens books).2
      = if tokens.all (fun t => (viewOf books t).yes_ask.isSome)
        then some ((tokens.map (fun t => ((viewOf books t).yes_ask).getD 0)).sum)
        else none := by
  unfold compute_prices
  dsimp only
  rw [cpLoop_flag]
  by_cases hc : tokens.all (fun t => (viewOf books t).yes_ask.isSome) = true
  · have hall := List.all_eq_true.mp hc
    rw [cpLoop_sum books tokens hall [] 0 true]
    simp [hc]
  · simp [hc]

theorem compute_prices_pm_eq (tokens : List MarketTokens)
    (books : List (String × OrderBookState)) :
    (compute_prices tokens books).1
      = tokens.foldl (fun acc t => dictSet acc t.market_id (viewOf books t)) [] := by
  unfold compute_prices
  dsimp only
  exact cpLoop_pm books tokens [] 0 true

theorem dictGet_foldl_view_of_not_mem (books : List (String × OrderBookState))
    (l : List MarketTokens) (m : Int) (h : ∀ t ∈ l, t.market_id ≠ m) :
    ∀ pm, dictGet (l.foldl (fun acc t => dictSet acc t.market_id (viewOf books t)) pm) m
      = dictGet pm m := by
  induction l with
  | nil => intro pm; rfl
  | cons t rest ih =>
    intro pm
    rw [List.foldl_cons, ih (fun t' ht' => h t' (List.mem_cons_of_mem _ ht')),
      dictGet_dictSet]
    exact if_neg (fun he => h t (List.mem_cons_self _ _) he.symm)

theorem dictGet_foldl_view_mem (books : List (String × OrderBookState))
    (l : List MarketTokens) (m : Int) (hex : ∃ t ∈ l, t.market_id = m) :
    ∀ pm, ∃ t', t' ∈ l ∧ t'.market_id = m ∧
      dictGet (l.foldl (fun acc t => dictSet acc t.market_id (viewOf books t)) pm) m
        = some (viewOf books t') := by
  induction l with
  | nil =>
    obtain ⟨t, ht, _⟩ := hex
    exact absurd ht (List.not_mem_nil t)
  | cons t rest ih =>
    intro pm
    by_cases hr : ∃ t' ∈ rest, t'.market_id = m
    · obtain ⟨t', ht', hm', hget⟩ := ih hr (dictSet pm t.market_id (viewOf books t))
      exact ⟨t', List.mem_cons_of_mem _ ht', hm', by simpa [List.foldl_cons] using hget⟩
    · obtain ⟨t0, ht0, hm0⟩ := hex
      have hmt : t.market_id = m := by
        rcases List.mem_cons.mp ht0 with h0 | h0
        · rw [← h0]; exact hm0
        · exact absurd ⟨t0, h0, hm0⟩ hr
      have hnone : ∀ t' ∈ rest, t'.market_id ≠ m := fun t' ht' hm' => hr ⟨t', ht', hm'⟩
      refine ⟨t, List.mem_cons_self _ _, hmt, ?_⟩
      rw [List.foldl_cons, dictGet_foldl_view_of_not_mem books rest m hnone,
        dictGet_dictSet]
      rw [if_pos hmt.symm]

theorem openLoop_isSome (pm : List (Int × MarketView)) (fee_rate qty : Rat)
    (l : List MarketTokens)
    (h : ∀ t ∈ l, (yesAskAt pm t.market_id).isSome = true) :
    ∀ prices fees, (openLoop pm fee_rate qty l prices fees).isSome = true := by
  induction l with
  | nil => intro prices fees; rfl
  | cons t rest ih =>
    intro prices fees
    obtain ⟨a, ha⟩ := Option.isSome_iff_exists.mp (h t (List.mem_cons_self _ _))
    have h' := fun t' ht' => h t' (List.mem_cons_of_mem _ ht')
    simp [openLoop, ha, ih h']

theorem mtmLoop_missing (pm : List (Int × MarketView)) (p : BasketPosition) (fee_rate : Rat)
    (l : List MarketTokens) (hmiss : ∃ t ∈ l, yesBidAt pm t.market_id = none) :
    ∀ pnl fee, mtmLoop pm p fee_rate l pnl fee = none := by
  induction l with
  | nil =>
    obtain ⟨t, ht, _⟩ := hmiss
    exact absurd ht (List.not_mem_nil t)
  | cons t rest ih =>
    intro pnl fee
    cases hb : yesBidAt pm t.market_id with
    | none => simp [mtmLoop, hb]
    | some bid =>
      cases he : dictGet p.entry_yes_prices t.market_id with
      | none => simp [mtmLoop, hb, he]
      | some buy =>
        have hr : ∃ t' ∈ rest, yesBidAt pm t'.market_id = none := by
          obtain ⟨t0, ht0, hm0⟩ := hmiss
          rcases List.mem_cons.mp ht0 with h0 | h0
          · rw [h0] at hm0
            rw [hm0] at hb
            cases hb
          · exact ⟨t0, h0, hm0⟩
        simp [mtmLoop, hb, he, ih hr]

theorem mtmLoop_char (pm : List (Int × MarketView)) (p : BasketPosition) (fee_rate : Rat)
    (l : List MarketTokens)
    (h : ∀ t ∈ l, (yesBidAt pm t.market_id).isSome = true ∧
      (dictGet p.entry_yes_prices t.market_id).isSome = true) :
    ∀ pnl fee, mtmLoop pm p fee_rate l pnl fee
      = some (pnl + (l.map (fun t => ((yesBidAt pm t.market_id).getD 0
            - (dictGet p.entry_yes_prices t.market_id).getD 0) * p.qty_per_leg)).sum,
          fee + (l.map (fun t =>
            calc_fee fee_rate ((yesBidAt pm t.market_id).getD 0 * p.qty_per_leg))).sum) := by
  induction l with
  | nil => intro pnl fee; simp [mtmLoop]
  | cons t rest ih =>
    intro pnl fee
    obtain ⟨hb, he⟩ := h t (List.mem_cons_self _ _)
    obtain ⟨bid, hbid⟩ := Option.isSome_iff_exists.mp hb
    obtain ⟨buy, hbuy⟩ := Option.isSome_iff_exists.mp he
    have h' := fun t' ht' => h t' (List.mem_cons_of_mem _ ht')
    rw [mtmLoop.eq_def]
    simp only [hbid, hbuy]
    rw [ih h']
    simp only [List.map_cons, List.sum_cons, hbid, hbuy, Option.getD_some,
      Option.some.injEq, Prod.mk.injEq]
    constructor <;> ring

theorem map_sum_congr {α : Type} (l : List α) (f g : α → Rat)
    (h : ∀ a ∈ l, f a = g a) : (l.map f).sum = (l.map g).sum := by
  induction l with
  | nil => rfl
  | cons a rest ih =>
    simp only [List.map_cons, List.sum_cons]
    rw [h a (List.mem_cons_self _ _), ih (fun a' ha' => h a' (List.mem_cons_of_mem _ ha'))]

/- ===== claim theorems ===== -/

/-- C5: apply_top overwrites only the top-of-book: for every book state
the depth maps are unchanged and the resulting top carries exactly the
given best_bid and best_ask, whatever the depth maps contain. -/
theorem c5_apply_top_frame (st : OrderBookState) (bb ba : Option Rat) (t : Nat) :
    (apply_top st bb ba t).bids = st.bids ∧
    (apply_top st bb ba t).asks = st.asks ∧
    (apply_top st bb ba t).top.best_bid = bb ∧
    (apply_top st bb ba t).top.best_ask = ba :=
  ⟨rfl, rfl, rfl, rfl⟩

/-- C3 counterexample: a snapshot containing a parsed level with size 0
stores that level as is (apply_snapshot does not filter sizes, only the
top computation does), so strict positivity of stored sizes fails after
this one-operation sequence. -/
theorem c3_counterexample :
    sizesPositiveB (applyOps initialBook [BookOp.snapshot [some (mkRat 1 2, 0)] [] 0]) = false := by
  decide

/-- C3 (amended): starting from a fresh book, after any sequence of
apply_snapshot / apply_changes operations in which every parsed snapshot
level carries a strictly positive size, every stored size is strictly
positive. (apply_changes maintains positivity unconditionally — size ≤ 0
removes the level — but apply_snapshot stores snapshot sizes as given.) -/
theorem c3_sizes_positive (ops : List BookOp)
    (h : ∀ op ∈ ops, snapshotLevelsPos op = true) :
    sizesPositiveB (applyOps initialBook ops) = true :=
  applyOps_sizesPos ops initialBook (by decide) h

/-- C3 witness: a concrete positive-size snapshot followed by deltas
keeps all stored sizes positive. -/
theorem c3_sizes_positive_witness :
    (∀ op ∈ [BookOp.snapshot [some (mkRat 1 2, 3)] [some (mkRat 3 5, 2)] 0,
             BookOp.changes [some ("buy", mkRat 1 4, 5), some ("sell", mkRat 3 5, 0)] 1],
      snapshotLevelsPos op = true) ∧
    sizesPositiveB (applyOps initialBook
      [BookOp.snapshot [some (mkRat 1 2, 3)] [some (mkRat 3 5, 2)] 0,
       BookOp.changes [some ("buy", mkRat 1 4, 5), some ("sell", mkRat 3 5, 0)] 1]) = true :=
  ⟨by decide, c3_sizes_positive _ (by decide)⟩

/-- C4 counterexample: apply_top copies a crossed feed top verbatim, so
best_bid can exceed best_ask (here best_bid = 1 > 1/2 = best_ask). -/
theorem c4_counterexample :
    topOrderedB (apply_top initialBook (some 1) (some (mkRat 1 2)) 0) = false := by
  decide

/-- C4 (amended): after apply_snapshot or apply_changes the recomputed
top satisfies best_bid ≤ best_ask whenever both are present, provided
the resulting depth maps are uncrossed (every positively-sized bid price
at most every positively-sized ask price); apply_top copies the feed's
top verbatim and guarantees no such ordering. -/
theorem c4_top_ordered (st : OrderBookState) (op : BookOp)
    (h : uncrossed (applyOp st op)) : topOrderedB (applyOp st op) = true := by
  cases op with
  | snapshot b a t => exact recompute_top_ordered _ t h
  | changes chs t => exact recompute_top_ordered _ t h

/-- C4 witness: an uncrossed snapshot yields an ordered top. -/
theorem c4_top_ordered_witness :
    uncrossed (applyOp initialBook (BookOp.snapshot [some (mkRat 2 5, 1)] [some (mkRat 3 5, 1)] 0)) ∧
    topOrderedB (applyOp initialBook (BookOp.snapshot [some (mkRat 2 5, 1)] [some (mkRat 3 5, 1)] 0)) = true := by
  refine ⟨?_, c4_top_ordered _ _ ?_⟩ <;> · unfold uncrossed; decide

/-- C6: delta law — apply_snapshot S followed by apply_changes D yields
the same top-of-book (best_bid and best_ask) as apply_snapshot of S ⊕ D,
where S ⊕ D is the parsed snapshot with the deltas of D applied (size ≤ 0
removing the level, otherwise setting it). -/
theorem c6_delta_law (st : OrderBookState) (Sb Sa : List (Option (Rat × Rat)))
    (D : List (Option (String × Rat × Rat))) (t1 t2 : Nat) :
    ((apply_changes (apply_snapshot st Sb Sa t1) D t2).top.best_bid =
      (apply_snapshot st ((specOplus (loadSide Sb, loadSide Sa) D).1.map some)
        ((specOplus (loadSide Sb, loadSide Sa) D).2.map some) t2).top.best_bid) ∧
    ((apply_changes (apply_snapshot st Sb Sa t1) D t2).top.best_ask =
      (apply_snapshot st ((specOplus (loadSide Sb, loadSide Sa) D).1.map some)
        ((specOplus (loadSide Sb, loadSide Sa) D).2.map some) t2).top.best_ask) := by
  have hb := loadSide_keysNodup Sb
  have ha := loadSide_keysNodup Sa
  have hnd := specOplus_keysNodup D (loadSide Sb, loadSide Sa) hb ha
  have hB : loadSide ((specOplus (loadSide Sb, loadSide Sa) D).1.map some)
      = (specOplus (loadSide Sb, loadSide Sa) D).1 := by
    rw [loadSide_map_some]
    simpa using foldl_dictSet_rebuild _ [] (by simpa using hnd.1)
  have hA : loadSide ((specOplus (loadSide Sb, loadSide Sa) D).2.map some)
      = (specOplus (loadSide Sb, loadSide Sa) D).2 := by
    rw [loadSide_map_some]
    simpa using foldl_dictSet_rebuild _ [] (by simpa using hnd.2)
  have hfold : D.foldl applyChangeStep (loadSide Sb, loadSide Sa)
      = specOplus (loadSide Sb, loadSide Sa) D := foldl_applyChangeStep_eq_specOplus D _
  constructor <;>
    simp only [apply_changes, apply_snapshot, recompute_top, hfold, hB, hA]

/-- C8: for positive fee_rate, price and qty the computed fee is the
product quantized to 8 fractional digits half-to-even, hence within
10⁻⁸ of fee_rate × price × qty; for fee_rate ≤ 0 the fee is exactly 0. -/
theorem c8_fee_rounding (fee_rate price qty : Rat) :
    (0 < fee_rate → 0 < price → 0 < qty →
      calc_fee fee_rate (price * qty) = round8 (price * qty * fee_rate) ∧
      |calc_fee fee_rate (price * qty) - fee_rate * price * qty| < 1/100000000) ∧
    (fee_rate ≤ 0 → calc_fee fee_rate (price * qty) = 0) := by
  constructor
  · intro hf _ _
    have h1 : calc_fee fee_rate (price * qty) = round8 (price * qty * fee_rate) := by
      rw [calc_fee, if_neg (not_le.mpr hf)]
    refine ⟨h1, ?_⟩
    have h2 := round8_close (price * qty * fee_rate)
    have h3 : fee_rate * price * qty = price * qty * fee_rate := by ring
    rw [h1, h3]
    exact h2
  · intro h
    rw [calc_fee, if_pos h]

/-- C8 witness at fee_rate 1/100, price 24/100, qty 1 (fee 0.0024
exactly), and fee_rate −1 for the non-positive branch. -/
theorem c8_fee_rounding_witness :
    ((0:Rat) < 1/100 ∧ (0:Rat) < 24/100 ∧ (0:Rat) < 1 ∧ (-1:Rat) ≤ 0) ∧
    (calc_fee (1/100) ((24:Rat)/100 * 1) = round8 ((24:Rat)/100 * 1 * (1/100)) ∧
      |calc_fee (1/100) ((24:Rat)/100 * 1) - (1:Rat)/100 * (24/100) * 1| < 1/100000000) ∧
    calc_fee (-1 : Rat) ((24:Rat)/100 * 1) = 0 :=
  ⟨⟨by norm_num, by norm_num, by norm_num, by norm_num⟩,
   (c8_fee_rounding (1/100) (24/100) 1).1 (by norm_num) (by norm_num) (by norm_num),
   (c8_fee_rounding (-1) (24/100) 1).2 (by norm_num)⟩

/-- C1: the basket open condition holds iff every configured market has
a defined yes_ask and the YES-ask sum is strictly below the threshold;
in particular a sum exactly equal to the threshold does not open. -/
theorem c1_open_condition (tokens : List MarketTokens)
    (books : List (String × OrderBookState)) (threshold : Rat) :
    (cond_open (compute_prices tokens books).2 threshold = true ↔
      ((∀ t ∈ tokens, (viewOf books t).yes_ask.isSome = true) ∧
        (tokens.map (fun t => ((viewOf books t).yes_ask).getD 0)).sum < threshold)) ∧
    ((compute_prices tokens books).2 = some threshold →
      cond_open (compute_prices tokens books).2 threshold = false) := by
  rw [compute_prices_sum_eq]
  by_cases hc : tokens.all (fun t => (viewOf books t).yes_ask.isSome) = true
  · rw [if_pos hc]
    constructor
    · simp only [cond_open]
      constructor
      · intro h
        exact ⟨List.all_eq_true.mp hc, of_decide_eq_true h⟩
      · rintro ⟨_, hs⟩
        exact decide_eq_true hs
    · intro h
      have hs : (tokens.map (fun t => ((viewOf books t).yes_ask).getD 0)).sum = threshold :=
        Option.some.inj h
      simp [cond_open, hs]
  · rw [if_neg hc]
    constructor
    · simp only [cond_open]
      constructor
      · intro h
        cases h
      · rintro ⟨hall, _⟩
        exact absurd (List.all_eq_true.mpr hall) hc
    · intro h
      cases h

/-- C1 witness: one market quoted with yes_ask 1/2 and threshold 1/2 —
the sum equals the threshold exactly and the basket does not open. -/
theorem c1_open_condition_witness :
    (compute_prices [tok1] booksCex).2 = some (mkRat 1 2) ∧
    cond_open (compute_prices [tok1] booksCex).2 (mkRat 1 2) = false := by
  have hsum : (compute_prices [tok1] booksCex).2 = some (mkRat 1 2) := by
    norm_num [compute_prices, cpLoop, viewOf, dictGet, booksCex, tok1]
  exact ⟨hsum, (c1_open_condition [tok1] booksCex (mkRat 1 2)).2 hsum⟩

/-- C10: whenever the open condition holds, every configured market's
yes_ask is necessarily present in the per-market view, so the open
action's skip branch is unreachable and a FLAT trader with cond_open
true always transitions to OPEN. -/
theorem c10_open_always_succeeds (tokens : List MarketTokens)
    (books : List (String × OrderBookState)) (threshold fee_rate qty : Rat)
    (as_of : Nat) (realized : Rat)
    (hopen : cond_open (compute_prices tokens books).2 threshold = true) :
    (∀ t ∈ tokens, (yesAskAt (compute_prices tokens books).1 t.market_id).isSome = true) ∧
    (traderStep tokens (compute_prices tokens books).1 (compute_prices tokens books).2
      threshold fee_rate qty as_of ⟨none, realized⟩).pos.isSome = true := by
  have hcall : tokens.all (fun t => (viewOf books t).yes_ask.isSome) = true := by
    by_contra hc
    rw [compute_prices_sum_eq, if_neg hc] at hopen
    simp [cond_open] at hopen
  have hall := List.all_eq_true.mp hcall
  have hAsk : ∀ t ∈ tokens,
      (yesAskAt (compute_prices tokens books).1 t.market_id).isSome = true := by
    intro t ht
    obtain ⟨t', ht', _, hget⟩ :=
      dictGet_foldl_view_mem books tokens t.market_id ⟨t, ht, rfl⟩ []
    rw [yesAskAt, compute_prices_pm_eq, hget]
    simpa using hall t' ht'
  refine ⟨hAsk, ?_⟩
  obtain ⟨pf, hpf⟩ := Option.isSome_iff_exists.mp
    (openLoop_isSome (compute_prices tokens books).1 fee_rate qty tokens hAsk [] [])
  simp [traderStep, hopen, hpf]

/-- C10 witness: one market quoted at 1/2 with threshold 1 opens. -/
theorem c10_open_always_succeeds_witness :
    cond_open (compute_prices [tok1] booksCex).2 1 = true ∧
    (traderStep [tok1] (compute_prices [tok1] booksCex).1 (compute_prices [tok1] booksCex).2
      1 0 1 0 ⟨none, 0⟩).pos.isSome = true := by
  have hopen : cond_open (compute_prices [tok1] booksCex).2 1 = true := by
    norm_num [compute_prices, cpLoop, viewOf, dictGet, booksCex, tok1, cond_open,
      Rat.mkRat_eq_div]
  exact ⟨hopen, (c10_open_always_succeeds [tok1] booksCex 1 0 1 0 0 hopen).2⟩

/-- C2 counterexample: with fee_rate −1 the code's exit fee is 0
(calc_fee short-circuits fee_rate ≤ 0) while the claimed formula
subtracts round8(−1 × 1/2 × 1) = −1/2: the realized-PnL increase on the
CLOSE transition is 1/4, not the 3/4 the claimed formula yields. -/
theorem c2_counterexample :
    (traderStep [tok1] pmCex (some 2) 1 (-1) 1 0 ⟨some posCex, 0⟩).pos = none ∧
    (traderStep [tok1] pmCex (some 2) 1 (-1) 1 0 ⟨some posCex, 0⟩).realized_pnl = 1/4 ∧
    ((mkRat 1 2 - mkRat 1 4) * 1 - (0:Rat) - round8 ((-1) * mkRat 1 2 * 1) = 3/4) ∧
    (1/4 : Rat) ≠ 3/4 := by
  refine ⟨?_, ?_, ?_, by norm_num⟩
  · simp [traderStep, cond_ready, cond_open, mtmLoop, yesBidAt, dictGet, pmCex, posCex,
      tok1, calc_fee, entryFeeSum]
  · simp [traderStep, cond_ready, cond_open, mtmLoop, yesBidAt, dictGet, pmCex, posCex,
      tok1, calc_fee, entryFeeSum]
    norm_num [Rat.mkRat_eq_div]
  · norm_num [round8, roundHalfEven, ratFloor_eq_intFloor, Rat.mkRat_eq_div]

/-- C2 (amended): on a CLOSE transition (position open, condition ready,
open condition false, every yes_bid present) with fee_rate ≥ 0, realized
PnL increases by Σ(yes_bid − entry)·qty − Σ entry_fees − Σ round8(
fee_rate × yes_bid × qty) and the position is cleared; when fee_rate < 0
the code's fees are 0, not round8 of the negative product. -/
theorem c2_close_conservation (tokens : List MarketTokens) (pm : List (Int × MarketView))
    (sum_yes_ask : Option Rat) (threshold fee_rate qty : Rat) (as_of : Nat)
    (st : TraderState) (p : BasketPosition)
    (hpos : st.pos = some p)
    (hready : cond_ready sum_yes_ask = true)
    (hopen : cond_open sum_yes_ask threshold = false)
    (hfr : 0 ≤ fee_rate)
    (hbid : ∀ t ∈ tokens, (yesBidAt pm t.market_id).isSome = true)
    (hentry : ∀ t ∈ tokens, (dictGet p.entry_yes_prices t.market_id).isSome = true) :
    (traderStep tokens pm sum_yes_ask threshold fee_rate qty as_of st).pos = none ∧
    (traderStep tokens pm sum_yes_ask threshold fee_rate qty as_of st).realized_pnl
        - st.realized_pnl
      = (tokens.map (fun t => ((yesBidAt pm t.market_id).getD 0
            - (dictGet p.entry_yes_prices t.market_id).getD 0) * p.qty_per_leg)).sum
        - entryFeeSum p
        - (tokens.map (fun t =>
            round8 (fee_rate * (yesBidAt pm t.market_id).getD 0 * p.qty_per_leg))).sum := by
  have hchar := mtmLoop_char pm p fee_rate tokens (fun t ht => ⟨hbid t ht, hentry t ht⟩) 0 0
  have hstep : traderStep tokens pm sum_yes_ask threshold fee_rate qty as_of st
      = { pos := none,
          realized_pnl := st.realized_pnl
            + ((0 + (tokens.map (fun t => ((yesBidAt pm t.market_id).getD 0
                  - (dictGet p.entry_yes_prices t.market_id).getD 0) * p.qty_per_leg)).sum)
              - entryFeeSum p
              - (0 + (tokens.map (fun t =>
                  calc_fee fee_rate ((yesBidAt pm t.market_id).getD 0 * p.qty_per_leg))).sum)) } := by
    simp [traderStep, hpos, hready, hopen, hchar]
  rw [hstep]
  refine ⟨rfl, ?_⟩
  have hmap : (tokens.map (fun t =>
        calc_fee fee_rate ((yesBidAt pm t.market_id).getD 0 * p.qty_per_leg))).sum
      = (tokens.map (fun t =>
        round8 (fee_rate * (yesBidAt pm t.market_id).getD 0 * p.qty_per_leg))).sum := by
    apply map_sum_congr
    intro t _
    rw [calc_fee_eq_round8 hfr, mul_assoc]
  dsimp only
  rw [zero_add, zero_add, hmap]
  ring

/-- C2 witness: a concrete CLOSE at fee_rate 1/100 clears the position. -/
theorem c2_close_conservation_witness :
    ((⟨some posCex, 0⟩ : TraderState).pos = some posCex ∧
      cond_ready (some 2) = true ∧ cond_open (some 2) 1 = false ∧ (0:Rat) ≤ 1/100) ∧
    (traderStep [tok1] pmCex (some 2) 1 (1/100) 1 0 ⟨some posCex, 0⟩).pos = none :=
  ⟨⟨rfl, rfl, by decide, by norm_num⟩,
   (c2_close_conservation [tok1] pmCex (some 2) 1 (1/100) 1 0 ⟨some posCex, 0⟩ posCex
      rfl rfl (by decide) (by norm_num) (by decide) (by decide)).1⟩

/-- C9 counterexample: with fee_rate −1 the code's estimated exit fee is
0 while the claimed formula subtracts round8(−1 × 1/2 × 1) = −1/2, so
the computed unrealized PnL (1/4) differs from the claimed one (3/4). -/
theorem c9_counterexample :
    computeUnrealized [tok1] pmCex (-1) (some posCex) = some (1/4) ∧
    specUnrealized [tok1] pmCex (-1) posCex = some (3/4) ∧
    computeUnrealized [tok1] pmCex (-1) (some posCex)
      ≠ specUnrealized [tok1] pmCex (-1) posCex := by
  have h1 : computeUnrealized [tok1] pmCex (-1) (some posCex) = some (1/4) := by
    simp [computeUnrealized, mtmLoop, yesBidAt, dictGet, pmCex, posCex, tok1, calc_fee,
      entryFeeSum]
    norm_num [Rat.mkRat_eq_div]
  have h2 : specUnrealized [tok1] pmCex (-1) posCex = some (3/4) := by
    simp [specUnrealized, yesBidAt, dictGet, pmCex, posCex, tok1, entryFeeSum]
    norm_num [round8, roundHalfEven, ratFloor_eq_intFloor, Rat.mkRat_eq_div]
  refine ⟨h1, h2, ?_⟩
  rw [h1, h2]
  simp
  norm_num

/-- C9 (amended): while a position is open and fee_rate ≥ 0, unrealized
PnL equals the spec's mark-to-market formula — Σ(yes_bid − entry)·qty −
Σ entry_fees − Σ round8(fee_rate × yes_bid × qty) when every yes_bid is
present, absent (not zero) otherwise — it is absent when flat, and the
running-PnL upsert substitutes zero exactly when it is absent; when
fee_rate < 0 the code's estimated exit fee is 0, not the round8 value. -/
theorem c9_unrealized (tokens : List MarketTokens) (pm : List (Int × MarketView))
    (fee_rate : Rat) (p : BasketPosition)
    (hfr : 0 ≤ fee_rate)
    (hentry : ∀ t ∈ tokens, (dictGet p.entry_yes_prices t.market_id).isSome = true) :
    computeUnrealized tokens pm fee_rate (some p) = specUnrealized tokens pm fee_rate p ∧
    computeUnrealized tokens pm fee_rate none = none ∧
    (∀ u : Option Rat, pnlUpsertUnrealized u = u.getD 0) ∧
    pnlUpsertUnrealized none = (0 : Rat) ∧
    (∀ v : Rat, pnlUpsertUnrealized (some v) = v) := by
  refine ⟨?_, rfl, ?_, rfl, fun v => rfl⟩
  · by_cases hc : tokens.all (fun t => (yesBidAt pm t.market_id).isSome) = true
    · have hall := List.all_eq_true.mp hc
      rw [computeUnrealized,
        mtmLoop_char pm p fee_rate tokens (fun t ht => ⟨hall t ht, hentry t ht⟩) 0 0,
        specUnrealized, if_pos hc]
      have hmap : (tokens.map (fun t =>
            calc_fee fee_rate ((yesBidAt pm t.market_id).getD 0 * p.qty_per_leg))).sum
          = (tokens.map (fun t =>
            round8 (fee_rate * (yesBidAt pm t.market_id).getD 0 * p.qty_per_leg))).sum := by
        apply map_sum_congr
        intro t _
        rw [calc_fee_eq_round8 hfr, mul_assoc]
      simp only [Option.map_some']
      rw [zero_add, zero_add, hmap]
    · have hmiss : ∃ t ∈ tokens, yesBidAt pm t.market_id = none := by
        have hna : ¬ ∀ t ∈ tokens, (yesBidAt pm t.market_id).isSome = true :=
          fun hall => hc (List.all_eq_true.mpr hall)
        push_neg at hna
        obtain ⟨t, ht, hns⟩ := hna
        refine ⟨t, ht, ?_⟩
        cases hy : yesBidAt pm t.market_id with
        | none => rfl
        | some v =>
          rw [hy] at hns
          simp at hns
      rw [computeUnrealized, mtmLoop_missing pm p fee_rate tokens hmiss 0 0,
        specUnrealized, if_neg hc]
      rfl
  · intro u
    cases u <;> rfl

/-- C9 witness: a concrete open position with fee_rate 1/100 where the
code's unrealized PnL matches the spec formula. -/
theorem c9_unrealized_witness :
    ((0:Rat) ≤ 1/100) ∧
    computeUnrealized [tok1] pmCex (1/100) (some posCex)
      = specUnrealized [tok1] pmCex (1/100) posCex :=
  ⟨by norm_num,
   (c9_unrealized [tok1] pmCex (1/100) posCex (by norm_num) (by decide)).1⟩

/-- C7: asset-id extraction inspects asset_id, assetId, token_id,
tokenId in that order and the first present field wins; for every
message shape the parser returns a non-null asset id iff the message
contains one of those fields, a message with none of them is dropped
with no event emitted, and a message with an asset id always yields an
event. -/
theorem c7_asset_id_extraction (m : WireMsg) :
    ((parse_market_channel_message m).1.isSome
        = (m.asset_id.isSome || m.assetId.isSome || m.token_id.isSome || m.tokenId.isSome)) ∧
    ((parse_market_channel_message m).2.isSome = (parse_market_channel_message m).1.isSome) ∧
    (extract_asset_id m = none → parse_market_channel_message m = (none, none)) ∧
    ((parse_market_channel_message m).1 = extract_asset_id m) ∧
    (∀ a, m.asset_id = some a → extract_asset_id m = some a) ∧
    (m.asset_id = none → ∀ a, m.assetId = some a → extract_asset_id m = some a) ∧
    (m.asset_id = none → m.assetId = none → ∀ a, m.token_id = some a →
      extract_asset_id m = some a) ∧
    (m.asset_id = none → m.assetId = none → m.token_id = none →
      extract_asset_id m = m.tokenId) := by
  obtain ⟨a1, a2, a3, a4, bb, aa, b1, b2, ch⟩ := m
  cases a1 <;> cases a2 <;> cases a3 <;> cases a4 <;>
    simp [extract_asset_id, parse_market_channel_message]

/-- C7 witness: a message whose only asset-id field is assetId (second
in the inspection order) yields that id. -/
theorem c7_asset_id_extraction_witness :
    msgW.asset_id = none ∧ msgW.assetId = some "x" ∧ extract_asset_id msgW = some "x" :=
  ⟨rfl, rfl, (c7_asset_id_extraction msgW).2.2.2.2.2.1 rfl "x" rfl⟩

end PolymarketPgsql
